import Mathlib

/-!
Verification of the A* grid-search core (Rust crate astar-wasm, src/lib.rs).

The embedding below translates the Rust source directly:
* `Point` mirrors the Rust struct `Point` (two `i32` fields, embedded as
  unbounded `Int`; the source relies on signed arithmetic and the grid
  dimensions it is used with stay far below the `i32` range).
* `Node` mirrors the Rust struct `Node`; Rust `PartialEq` on `Node` compares
  positions only, so the `Vec::contains` calls of the source are embedded as
  position membership tests.
* `Node.new`, `Dirs`, `tryDir` and `aStarLoop` follow `Node::new`,
  `Dirs::iter`/`Dirs::get` and the body of `a_star` statement by statement.
  Rust `Vec::sort_by(|a, b| b.f.cmp(&a.f))` is a stable descending sort by
  `f`; a stable sort and a total preorder determine the output list uniquely,
  so it is embedded as the stable `List.insertionSort` with the same order.
  The `panic!` on an empty open list is embedded as the result value
  `AStarResult.noPath`; the source loop is embedded with an explicit fuel
  counter, `none` meaning that the fuel ran out before the loop finished.
-/

set_option maxHeartbeats 1000000

namespace AStarWasm

/-- Grid coordinate, Rust struct `Point` with `i32` fields. -/
structure Point where
  x : Int
  y : Int
deriving DecidableEq, Repr

/-- Rust `Point::add`. -/
def Point.add (p q : Point) : Point :=
  { x := p.x + q.x, y := p.y + q.y }

/-- Search node, Rust struct `Node`. -/
structure Node where
  parent : Option Point
  pos : Point
  g : Int
  h : Int
  f : Int
deriving DecidableEq, Repr

/-- Rust `const MOVE_COST: i32 = 1`. -/
def MOVE_COST : Int := 1

/-- Rust `Node::new`. -/
def Node.new (pos : Point) (parentNode : Option Node) (endPos : Point) : Node :=
  let baseG : Int := 0
  let baseH : Int := |pos.x - endPos.x| + |pos.y - endPos.y|
  match parentNode with
  | some parent =>
    let g := baseG + parent.g + MOVE_COST
    let h := baseH
    let f := g + h
    { parent := some parent.pos, pos := pos, g := g, h := h, f := f }
  | none =>
    let g := baseG
    let h := baseH
    let f := g + h
    { parent := none, pos := pos, g := g, h := h, f := f }

/-- Rust enum `Dirs` (the four cardinal directions; the diagonal variants are
commented out in the source). -/
inductive Dirs
  | N
  | E
  | S
  | W
deriving DecidableEq, Repr

/-- Rust `Dirs::get`. -/
def Dirs.get : Dirs → Point
  | .N => { x := 0, y := -1 }
  | .E => { x := 1, y := 0 }
  | .S => { x := 0, y := 1 }
  | .W => { x := -1, y := 0 }

/-- Rust `Dirs::iter`, the fixed expansion order N, E, S, W. -/
def Dirs.dirList : List Dirs := [.N, .E, .S, .W]

/-- Result of one call of `a_star`: either the terminal node, or `noPath`,
which embeds the `panic!("No nodes in open list, end not found!")` branch. -/
inductive AStarResult
  | found (n : Node)
  | noPath
deriving DecidableEq, Repr

/-- The stable descending sort by `f` performed at the top of every loop
iteration: Rust `open.sort_by(|a, b| b.f.cmp(&a.f))`. -/
def sortOpen (l : List Node) : List Node :=
  List.insertionSort (fun a b => b.f ≤ a.f) l

theorem sortOpen_ne_nil {l : List Node} (h : ¬l = []) : sortOpen l ≠ [] := by
  intro hs
  apply h
  have hlen := List.length_insertionSort (fun a b => b.f ≤ a.f) l
  rw [sortOpen] at hs
  rw [hs] at hlen
  exact List.eq_nil_of_length_eq_zero hlen.symm

/-- The body of the `for dir in Dirs::iter()` loop of `a_star` for a single
direction: build the successor, apply the bounds / wall filter, then insert
into open unless a node with the same position is already in open or closed
(`Vec::contains` uses the position-only `PartialEq` of `Node`). -/
def tryDir (w h : Nat) (endP : Point) (walls : List Point) (best : Node)
    (closed : List Node) (opn : List Node) (d : Dirs) : List Node :=
  let successor := Node.new (Point.add best.pos (Dirs.get d)) (some best) endP
  let nextPos := successor.pos
  if nextPos.x ≥ (w : Int) ∨ nextPos.x < 0 ∨ nextPos.y ≥ (h : Int) ∨ nextPos.y < 0 ∨
      nextPos ∈ walls then
    opn
  else if (¬∃ n ∈ opn, n.pos = nextPos) ∧ (¬∃ n ∈ closed, n.pos = nextPos) then
    opn ++ [successor]
  else
    opn

/-- The `loop` of Rust `a_star`, with an explicit fuel counter (`none` means
the fuel ran out).  One fuel unit is one loop iteration: check for an empty
open list, sort, pop the last node, test for the end position, move the
popped node to closed and expand its four neighbours. -/
def aStarLoop (w h : Nat) (endP : Point) (walls : List Point) :
    Nat → List Node → List Node → Option AStarResult
  | 0, _, _ => none
  | fuel + 1, opn, closed =>
    if hne : opn = [] then
      some .noPath
    else
      let sorted := sortOpen opn
      let best := sorted.getLast (sortOpen_ne_nil hne)
      let rest := sorted.dropLast
      if best.pos = endP then
        some (.found best)
      else
        let closed' := closed ++ [best]
        aStarLoop w h endP walls fuel
          (Dirs.dirList.foldl (tryDir w h endP walls best closed') rest) closed'

/-- Rust `pub fn a_star`: push the start node and run the loop. -/
def a_star (width height : Nat) (start endP : Point) (walls : List Point)
    (fuel : Nat) : Option AStarResult :=
  aStarLoop width height endP walls fuel [Node.new start none endP] []

/-- The valid coordinate range `[0, width) × [0, height)`. -/
def inBounds (w h : Nat) (p : Point) : Prop :=
  0 ≤ p.x ∧ p.x < (w : Int) ∧ 0 ≤ p.y ∧ p.y < (h : Int)

instance (w h : Nat) (p : Point) : Decidable (inBounds w h p) := by
  unfold inBounds; infer_instance

/-- Manhattan distance between two points, as a natural number. -/
def distN (p q : Point) : Nat :=
  (p.x - q.x).natAbs + (p.y - q.y).natAbs

theorem distN_triangle (p q r : Point) : distN p r ≤ distN p q + distN q r := by
  unfold distN
  omega

theorem distN_eq_zero {p q : Point} (h : distN p q = 0) : p = q := by
  unfold distN at h
  have hx : p.x = q.x := by omega
  have hy : p.y = q.y := by omega
  cases p; cases q
  simp_all

theorem distN_add (p q : Point) (d : Dirs) :
    distN p (Point.add q (Dirs.get d)) ≤ distN p q + 1 := by
  cases d <;> (unfold distN Point.add Dirs.get; simp only []; omega)

/-- The `h` field of every node built by `Node::new` is the Manhattan
distance to the end position, and `f = g + h`. -/
theorem Node_new_h (pos : Point) (parentNode : Option Node) (endPos : Point) :
    (Node.new pos parentNode endPos).h = ((distN pos endPos : Nat) : Int) ∧
      (Node.new pos parentNode endPos).f =
        (Node.new pos parentNode endPos).g + (Node.new pos parentNode endPos).h ∧
      (Node.new pos parentNode endPos).pos = pos := by
  have habs : |pos.x - endPos.x| + |pos.y - endPos.y| = ((distN pos endPos : Nat) : Int) := by
    rw [Int.abs_eq_natAbs, Int.abs_eq_natAbs]
    unfold distN
    push_cast
    ring
  cases parentNode <;> simp [Node.new, habs]

theorem Node_new_g_some (pos : Point) (parent : Node) (endPos : Point) :
    (Node.new pos (some parent) endPos).g = parent.g + 1 ∧
      (Node.new pos (some parent) endPos).parent = some parent.pos := by
  simp [Node.new, MOVE_COST]

theorem Node_new_g_none (pos endPos : Point) :
    (Node.new pos none endPos).g = 0 ∧ (Node.new pos none endPos).parent = none := by
  simp [Node.new]

/-- C3: when the open list is empty, the loop body does not produce a node:
it takes the `panic!` branch, embedded as `noPath`. -/
theorem empty_open_fails (w h : Nat) (endP : Point) (walls : List Point)
    (closed : List Node) (fuel : Nat) :
    aStarLoop w h endP walls (fuel + 1) [] closed = some AStarResult.noPath ∧
      ∀ n : Node, aStarLoop w h endP walls (fuel + 1) [] closed ≠ some (.found n) := by
  constructor
  · simp [aStarLoop]
  · intro n
    simp [aStarLoop]

/-- C7: `Node::new` sets `g` to the parent `g` plus the move cost 1 when a
parent is supplied and to 0 with no parent; `a_star` seeds the open list with
exactly the start node built with no parent (so `parent = none`, `g = 0`). -/
theorem node_cost_model (pos : Point) (parent : Node) (endPos : Point)
    (w h : Nat) (s e : Point) (walls : List Point) (fuel : Nat) :
    (Node.new pos (some parent) endPos).g = parent.g + 1 ∧
      (Node.new pos (some parent) endPos).parent = some parent.pos ∧
      (Node.new pos none endPos).g = 0 ∧
      (Node.new pos none endPos).parent = none ∧
      a_star w h s e walls fuel = aStarLoop w h e walls fuel [Node.new s none e] [] := by
  refine ⟨(Node_new_g_some pos parent endPos).1, (Node_new_g_some pos parent endPos).2,
    (Node_new_g_none pos endPos).1, (Node_new_g_none pos endPos).2, rfl⟩

/-- C10: with `start = end` the very first iteration pops the start node and
returns it, whatever the bounds and the walls are: the start cell is never
validated.  The returned node is `parent = none`, `g = 0`, `h = 0`, `f = 0`. -/
theorem start_eq_end_immediate (w h : Nat) (p : Point) (walls : List Point)
    (fuel : Nat) :
    a_star w h p p walls (fuel + 1) =
      some (.found { parent := none, pos := p, g := 0, h := 0, f := 0 }) := by
  have hnode : Node.new p none p = { parent := none, pos := p, g := 0, h := 0, f := 0 } := by
    simp [Node.new]
  rw [a_star, aStarLoop]
  simp [hnode, sortOpen, List.insertionSort, List.orderedInsert]

theorem getLast?_cons_of_ne_nil {α : Type} (b : α) {t : List α} (h : t ≠ []) :
    (b :: t).getLast? = t.getLast? := by
  cases t with
  | nil => exact absurd rfl h
  | cons c t' => exact List.getLast?_cons_cons

theorem orderedInsert_ne_nil (a : Node) (s : List Node) :
    List.orderedInsert (fun a b => b.f ≤ a.f) a s ≠ [] := by
  intro hcontra
  have := List.orderedInsert_length (fun a b => b.f ≤ a.f) s a
  rw [hcontra] at this
  simp at this

/-- Where the last element of the list ends up after one ordered insertion:
the inserted element becomes the last one exactly when its `f` is strictly
below the `f` of every present element. -/
theorem getLast?_orderedInsert (a : Node) (s : List Node) :
    (List.orderedInsert (fun a b => b.f ≤ a.f) a s).getLast? =
      if ∀ b ∈ s, a.f < b.f then some a else s.getLast? := by
  induction s with
  | nil => simp [List.orderedInsert]
  | cons b l ih =>
    by_cases hr : b.f ≤ a.f
    · rw [List.orderedInsert, if_pos hr]
      have hcond : ¬∀ c ∈ b :: l, a.f < c.f := by
        intro hall
        exact absurd (hall b (by simp)) (by omega)
      rw [if_neg hcond]
      exact List.getLast?_cons_cons
    · rw [List.orderedInsert, if_neg hr]
      rw [getLast?_cons_of_ne_nil b (orderedInsert_ne_nil a l), ih]
      have hab : a.f < b.f := by omega
      by_cases hl : ∀ c ∈ l, a.f < c.f
      · rw [if_pos hl, if_pos]
        intro c hc
        rcases List.mem_cons.mp hc with hc | hc
        · rw [hc]; exact hab
        · exact hl c hc
      · rw [if_neg hl, if_neg]
        · have hlne : l ≠ [] := by
            intro hnil
            exact hl (by rw [hnil]; intro c hc; simp at hc)
          exact (getLast?_cons_of_ne_nil b hlne).symm
        · intro hall
          exact hl fun c hc => hall c (List.mem_cons_of_mem b hc)

/-- The element the sorted pop selects, computed directly on the unsorted
list: the first element whose `f` is strictly below the `f` of everything
after it (equivalently, the last element attaining the minimal `f`). -/
def lastMinF : List Node → Option Node
  | [] => none
  | a :: t => if ∀ b ∈ t, a.f < b.f then some a else lastMinF t

theorem sortOpen_getLast? (l : List Node) : (sortOpen l).getLast? = lastMinF l := by
  induction l with
  | nil => simp [sortOpen, List.insertionSort, lastMinF]
  | cons a t ih =>
    rw [sortOpen, List.insertionSort, getLast?_orderedInsert]
    have hmem : ∀ b : Node,
        (b ∈ List.insertionSort (fun a b => b.f ≤ a.f) t) ↔ b ∈ t := by
      intro b
      exact (List.perm_insertionSort (fun a b => b.f ≤ a.f) t).mem_iff
    rw [lastMinF]
    by_cases hc : ∀ b ∈ t, a.f < b.f
    · rw [if_pos hc, if_pos]
      intro b hb
      exact hc b ((hmem b).mp hb)
    · rw [if_neg hc, if_neg, ← sortOpen, ih]
      intro hall
      exact hc fun b hb => hall b ((hmem b).mpr hb)

theorem lastMinF_spec :
    ∀ (l : List Node) (m : Node), lastMinF l = some m →
      ∃ l₁ l₂, l = l₁ ++ m :: l₂ ∧ (∀ n ∈ l, m.f ≤ n.f) ∧ ∀ n ∈ l₂, m.f < n.f := by
  intro l
  induction l with
  | nil => intro m hm; simp [lastMinF] at hm
  | cons a t ih =>
    intro m hm
    rw [lastMinF] at hm
    by_cases hc : ∀ b ∈ t, a.f < b.f
    · rw [if_pos hc] at hm
      injection hm with hm
      subst hm
      refine ⟨[], t, by simp, ?_, hc⟩
      intro n hn
      rcases List.mem_cons.mp hn with hn | hn
      · rw [hn]
      · exact le_of_lt (hc n hn)
    · rw [if_neg hc] at hm
      obtain ⟨l₁, l₂, heq, hmin, hafter⟩ := ih m hm
      push_neg at hc
      obtain ⟨b₀, hb₀mem, hb₀⟩ := hc
      refine ⟨a :: l₁, l₂, by rw [heq]; rfl, ?_, hafter⟩
      intro n hn
      rcases List.mem_cons.mp hn with hn | hn
      · rw [hn]
        exact le_trans (hmin b₀ hb₀mem) hb₀
      · exact hmin n hn

theorem lastMinF_isSome {l : List Node} (h : l ≠ []) : ∃ m, lastMinF l = some m := by
  induction l with
  | nil => exact absurd rfl h
  | cons a t ih =>
    rw [lastMinF]
    by_cases hc : ∀ b ∈ t, a.f < b.f
    · exact ⟨a, if_pos hc⟩
    · rw [if_neg hc]
      apply ih
      intro hnil
      exact hc (by rw [hnil]; intro b hb; simp at hb)

/-- The pop performed by the loop (stable descending sort by `f`, then take
the last element) selects the last element of the open list attaining the
minimal `f`: it is minimal, and every element after it is strictly larger. -/
theorem pop_spec (opn : List Node) (hne : ¬opn = []) :
    ∃ l₁ l₂, opn = l₁ ++ (sortOpen opn).getLast (sortOpen_ne_nil hne) :: l₂ ∧
      (∀ n ∈ opn, ((sortOpen opn).getLast (sortOpen_ne_nil hne)).f ≤ n.f) ∧
      ∀ n ∈ l₂, ((sortOpen opn).getLast (sortOpen_ne_nil hne)).f < n.f := by
  have h1 : (sortOpen opn).getLast? = some ((sortOpen opn).getLast (sortOpen_ne_nil hne)) :=
    List.getLast?_eq_getLast _ _
  rw [sortOpen_getLast?] at h1
  exact lastMinF_spec opn _ h1

/-- Positive-form acceptance condition for one candidate insertion. -/
def accepts (w h : Nat) (walls : List Point) (opn closed : List Node) (p : Point) : Prop :=
  inBounds w h p ∧ p ∉ walls ∧ (∀ n ∈ opn, n.pos ≠ p) ∧ ∀ n ∈ closed, n.pos ≠ p

instance (w h : Nat) (walls : List Point) (opn closed : List Node) (p : Point) :
    Decidable (accepts w h walls opn closed p) := by
  unfold accepts; infer_instance

theorem Node_new_pos (pos : Point) (parentNode : Option Node) (endPos : Point) :
    (Node.new pos parentNode endPos).pos = pos := by
  cases parentNode <;> simp [Node.new]

/-- `tryDir` in positive form: the candidate is appended exactly when its
position is in bounds, not a wall, and shares no position with open or
closed; otherwise open is returned untouched. -/
theorem tryDir_eq (w h : Nat) (endP : Point) (walls : List Point) (best : Node)
    (closed opn : List Node) (d : Dirs) :
    tryDir w h endP walls best closed opn d =
      if accepts w h walls opn closed (Point.add best.pos (Dirs.get d)) then
        opn ++ [Node.new (Point.add best.pos (Dirs.get d)) (some best) endP]
      else
        opn := by
  rw [tryDir]
  simp only [Node_new_pos]
  by_cases hacc : accepts w h walls opn closed (Point.add best.pos (Dirs.get d))
  · have ⟨hb, hwl, ho, hc⟩ := hacc
    have ⟨hb1, hb2, hb3, hb4⟩ := hb
    rw [if_neg (by push_neg; exact ⟨by omega, by omega, by omega, by omega, hwl⟩)]
    rw [if_pos ⟨fun hex => by
        obtain ⟨n, hn, hp⟩ := hex
        exact ho n hn hp,
      fun hex => by
        obtain ⟨n, hn, hp⟩ := hex
        exact hc n hn hp⟩]
    rw [if_pos hacc]
  · rw [if_neg hacc]
    unfold accepts at hacc
    push_neg at hacc
    by_cases hfilter : (Point.add best.pos (Dirs.get d)).x ≥ (w : Int) ∨
        (Point.add best.pos (Dirs.get d)).x < 0 ∨
        (Point.add best.pos (Dirs.get d)).y ≥ (h : Int) ∨
        (Point.add best.pos (Dirs.get d)).y < 0 ∨
        (Point.add best.pos (Dirs.get d)) ∈ walls
    · rw [if_pos hfilter]
    · rw [if_neg hfilter]
      push_neg at hfilter
      obtain ⟨h1, h2, h3, h4, h5⟩ := hfilter
      have hbnds : inBounds w h (Point.add best.pos (Dirs.get d)) :=
        ⟨by omega, by omega, by omega, by omega⟩
      have himp := hacc hbnds h5
      rw [if_neg]
      intro ⟨hno, hnc⟩
      have hC : ∀ n ∈ opn, n.pos ≠ Point.add best.pos (Dirs.get d) := by
        intro n hn hp
        exact hno ⟨n, hn, hp⟩
      exact hnc (himp hC)

/-- C4: during neighbour expansion a candidate is inserted into the open list
iff its position is inside the grid, not an obstacle, and no node with the
same position is already in open or closed; otherwise the open list is
returned unchanged, so a later (possibly cheaper) path to a seen position is
discarded and no existing entry is updated. -/
theorem insertion_filter (w h : Nat) (endP : Point) (walls : List Point)
    (best : Node) (closed opn : List Node) (d : Dirs) :
    tryDir w h endP walls best closed opn d =
      if inBounds w h (Point.add best.pos (Dirs.get d)) ∧
          (Point.add best.pos (Dirs.get d)) ∉ walls ∧
          (∀ n ∈ opn, n.pos ≠ Point.add best.pos (Dirs.get d)) ∧
          (∀ n ∈ closed, n.pos ≠ Point.add best.pos (Dirs.get d)) then
        opn ++ [Node.new (Point.add best.pos (Dirs.get d)) (some best) endP]
      else
        opn :=
  tryDir_eq w h endP walls best closed opn d

/-- C5: the node removed from the open list at a selection step (stable
descending sort by `f`, then pop of the last element) attains the minimal `f`
of the open list, and every entry after it in insertion order has a strictly
larger `f` — i.e. among ties on the minimal `f` the most recently inserted
node is selected. -/
theorem selection_policy (opn : List Node) (hne : ¬opn = []) :
    ∃ l₁ l₂, opn = l₁ ++ (sortOpen opn).getLast (sortOpen_ne_nil hne) :: l₂ ∧
      (∀ n ∈ opn, ((sortOpen opn).getLast (sortOpen_ne_nil hne)).f ≤ n.f) ∧
      ∀ n ∈ l₂, ((sortOpen opn).getLast (sortOpen_ne_nil hne)).f < n.f :=
  pop_spec opn hne

def nodeTieA : Node := { parent := none, pos := { x := 0, y := 0 }, g := 0, h := 1, f := 1 }

def nodeTieB : Node := { parent := none, pos := { x := 1, y := 1 }, g := 0, h := 1, f := 1 }

theorem selection_policy_witness :
    ∃ l₁ l₂, [nodeTieA, nodeTieB] =
        l₁ ++ (sortOpen [nodeTieA, nodeTieB]).getLast (sortOpen_ne_nil (by decide)) :: l₂ ∧
      (∀ n ∈ [nodeTieA, nodeTieB],
        ((sortOpen [nodeTieA, nodeTieB]).getLast (sortOpen_ne_nil (by decide))).f ≤ n.f) ∧
      ∀ n ∈ l₂,
        ((sortOpen [nodeTieA, nodeTieB]).getLast (sortOpen_ne_nil (by decide))).f < n.f :=
  selection_policy [nodeTieA, nodeTieB] (by decide)

theorem tryDir_walls_congr (w h : Nat) (endP : Point) (walls₁ walls₂ : List Point)
    (hww : ∀ q, q ∈ walls₁ ↔ q ∈ walls₂) (best : Node) (closed opn : List Node)
    (d : Dirs) :
    tryDir w h endP walls₁ best closed opn d = tryDir w h endP walls₂ best closed opn d := by
  rw [tryDir_eq, tryDir_eq]
  have hiff : accepts w h walls₁ opn closed (Point.add best.pos (Dirs.get d)) ↔
      accepts w h walls₂ opn closed (Point.add best.pos (Dirs.get d)) := by
    unfold accepts
    rw [hww (Point.add best.pos (Dirs.get d))]
  by_cases hc : accepts w h walls₁ opn closed (Point.add best.pos (Dirs.get d))
  · rw [if_pos hc, if_pos (hiff.mp hc)]
  · rw [if_neg hc, if_neg fun hc2 => hc (hiff.mpr hc2)]

theorem aStarLoop_walls_congr (w h : Nat) (endP : Point) (walls₁ walls₂ : List Point)
    (hww : ∀ q, q ∈ walls₁ ↔ q ∈ walls₂) :
    ∀ (fuel : Nat) (opn closed : List Node),
      aStarLoop w h endP walls₁ fuel opn closed = aStarLoop w h endP walls₂ fuel opn closed := by
  intro fuel
  induction fuel with
  | zero => intro opn closed; rfl
  | succ fuel ih =>
    intro opn closed
    rw [aStarLoop, aStarLoop]
    by_cases hne : opn = []
    · rw [dif_pos hne, dif_pos hne]
    · rw [dif_neg hne, dif_neg hne]
      simp only []
      by_cases hend : ((sortOpen opn).getLast (sortOpen_ne_nil hne)).pos = endP
      · rw [if_pos hend, if_pos hend]
      · rw [if_neg hend, if_neg hend]
        have hfold : ∀ (ds : List Dirs) (o : List Node) (cl : List Node) (b : Node),
            ds.foldl (tryDir w h endP walls₁ b cl) o = ds.foldl (tryDir w h endP walls₂ b cl) o := by
          intro ds
          induction ds with
          | nil => intro o cl b; rfl
          | cons d ds ihd =>
            intro o cl b
            rw [List.foldl_cons, List.foldl_cons,
              tryDir_walls_congr w h endP walls₁ walls₂ hww b cl o d]
            exact ihd _ cl b
        rw [hfold]
        exact ih _ _

/-- C9: the walls list enters the search only through point membership, so
`a_star` returns the same result for any two walls lists containing the same
set of coordinates (permutations and duplicates included). -/
theorem walls_set_invariance (w h : Nat) (s e : Point) (walls₁ walls₂ : List Point)
    (hww : ∀ q, q ∈ walls₁ ↔ q ∈ walls₂) (fuel : Nat) :
    a_star w h s e walls₁ fuel = a_star w h s e walls₂ fuel := by
  rw [a_star, a_star]
  exact aStarLoop_walls_congr w h e walls₁ walls₂ hww fuel _ _

def wallsW1 : List Point := [{ x := 1, y := 0 }, { x := 2, y := 2 }]

def wallsW2 : List Point := [{ x := 2, y := 2 }, { x := 1, y := 0 }, { x := 1, y := 0 }]

theorem walls_set_invariance_witness :
    a_star 4 4 { x := 0, y := 0 } { x := 3, y := 3 } wallsW1 17 =
      a_star 4 4 { x := 0, y := 0 } { x := 3, y := 3 } wallsW2 17 :=
  walls_set_invariance 4 4 { x := 0, y := 0 } { x := 3, y := 3 } wallsW1 wallsW2
    (by
      intro q
      unfold wallsW1 wallsW2
      simp only [List.mem_cons, List.not_mem_nil, or_false]
      tauto) 17

/-- State invariant for termination: the positions across open and closed are
pairwise distinct and all inside the grid. -/
def nodupB (w h : Nat) (l : List Node) : Prop :=
  (l.map Node.pos).Nodup ∧ ∀ n ∈ l, inBounds w h n.pos

theorem nodupB_perm {w h : Nat} {l l' : List Node} (hp : l.Perm l')
    (hn : nodupB w h l) : nodupB w h l' := by
  refine ⟨(hp.map Node.pos).nodup_iff.mp hn.1, ?_⟩
  intro n hn'
  exact hn.2 n (hp.mem_iff.mpr hn')

theorem nodup_inBounds_length_le (w h : Nat) (l : List Point) (hnd : l.Nodup)
    (hb : ∀ p ∈ l, inBounds w h p) : l.length ≤ w * h := by
  cases l with
  | nil => simp
  | cons p0 t =>
    have hw : 0 < w := by
      have := hb p0 (by simp)
      unfold inBounds at this
      omega
    set l := p0 :: t with hl
    set enc : Point → Nat := fun p => p.x.toNat + w * p.y.toNat with henc
    have hinj : ∀ p ∈ l, ∀ q ∈ l, enc p = enc q → p = q := by
      intro p hp q hq he
      have hbp := hb p hp
      have hbq := hb q hq
      unfold inBounds at hbp hbq
      have hpx : p.x.toNat < w := by omega
      have hqx : q.x.toNat < w := by omega
      have hmodp : (p.x.toNat + w * p.y.toNat) % w = p.x.toNat := by
        rw [Nat.add_mul_mod_self_left]
        exact Nat.mod_eq_of_lt hpx
      have hmodq : (q.x.toNat + w * q.y.toNat) % w = q.x.toNat := by
        rw [Nat.add_mul_mod_self_left]
        exact Nat.mod_eq_of_lt hqx
      rw [henc] at he
      simp only [] at he
      have hex : p.x.toNat = q.x.toNat := by
        rw [← hmodp, ← hmodq, he]
      have hey : p.y.toNat = q.y.toNat :=
        Nat.eq_of_mul_eq_mul_left hw (by omega)
      have hx : p.x = q.x := by omega
      have hy : p.y = q.y := by omega
      cases p; cases q; simp_all
    have hmapnd : (l.map enc).Nodup := hnd.map_on hinj
    have hlt : ∀ m ∈ l.map enc, m < w * h := by
      intro m hm
      obtain ⟨p, hp, hpm⟩ := List.mem_map.mp hm
      have hbp := hb p hp
      unfold inBounds at hbp
      have h1 : p.x.toNat + w * p.y.toNat < w + w * p.y.toNat :=
        Nat.add_lt_add_right (by omega) (w * p.y.toNat)
      have h2 : w + w * p.y.toNat = w * (p.y.toNat + 1) := by ring
      have h3 : w * (p.y.toNat + 1) ≤ w * h :=
        Nat.mul_le_mul_left w (by omega)
      rw [← hpm, henc]
      simp only []
      omega
    have hsub : (l.map enc).toFinset ⊆ Finset.range (w * h) := by
      intro m hm
      simp only [Finset.mem_range]
      exact hlt m (List.mem_toFinset.mp hm)
    have hcard := Finset.card_le_card hsub
    rw [List.toFinset_card_of_nodup hmapnd, Finset.card_range] at hcard
    calc l.length = (l.map enc).length := (List.length_map l enc).symm
      _ ≤ w * h := hcard

theorem tryDir_nodupB (w h : Nat) (endP : Point) (walls : List Point)
    (best : Node) (closed opn : List Node) (d : Dirs)
    (hn : nodupB w h (opn ++ closed)) :
    nodupB w h (tryDir w h endP walls best closed opn d ++ closed) := by
  rw [tryDir_eq]
  by_cases hacc : accepts w h walls opn closed (Point.add best.pos (Dirs.get d))
  · rw [if_pos hacc]
    obtain ⟨hb, hwl, ho, hc⟩ := hacc
    set succ := Node.new (Point.add best.pos (Dirs.get d)) (some best) endP with hsucc
    have hperm : ((opn ++ [succ]) ++ closed).Perm (succ :: (opn ++ closed)) := by
      have h1 : (opn ++ [succ]) ++ closed = opn ++ succ :: closed := by
        simp [List.append_assoc]
      rw [h1]
      exact List.perm_middle
    apply nodupB_perm hperm.symm
    constructor
    · rw [List.map_cons, List.nodup_cons]
      refine ⟨?_, hn.1⟩
      intro hmem
      obtain ⟨n, hnmem, hneq⟩ := List.mem_map.mp hmem
      rw [Node_new_pos] at hneq
      rcases List.mem_append.mp hnmem with hno | hnc
      · exact ho n hno hneq
      · exact hc n hnc hneq
    · intro n hnmem
      rcases List.mem_cons.mp hnmem with hns | hold
      · rw [hns, hsucc, Node_new_pos]
        exact hb
      · exact hn.2 n hold
  · rw [if_neg hacc]
    exact hn

theorem foldl_tryDir_nodupB (w h : Nat) (endP : Point) (walls : List Point)
    (best : Node) (closed : List Node) :
    ∀ (ds : List Dirs) (opn : List Node), nodupB w h (opn ++ closed) →
      nodupB w h (ds.foldl (tryDir w h endP walls best closed) opn ++ closed) := by
  intro ds
  induction ds with
  | nil => intro opn hn; exact hn
  | cons d ds ih =>
    intro opn hn
    rw [List.foldl_cons]
    exact ih _ (tryDir_nodupB w h endP walls best closed opn d hn)

theorem sortOpen_decomp (opn : List Node) (hne : ¬opn = []) :
    opn.Perm ((sortOpen opn).dropLast ++ [(sortOpen opn).getLast (sortOpen_ne_nil hne)]) := by
  rw [List.dropLast_append_getLast (sortOpen_ne_nil hne)]
  exact (List.perm_insertionSort (fun a b => b.f ≤ a.f) opn).symm

theorem aStarLoop_total (w h : Nat) (endP : Point) (walls : List Point) :
    ∀ (fuel : Nat) (opn closed : List Node), nodupB w h (opn ++ closed) →
      w * h + 1 ≤ fuel + closed.length →
      aStarLoop w h endP walls fuel opn closed ≠ none := by
  intro fuel
  induction fuel with
  | zero =>
    intro opn closed hn hfuel
    exfalso
    have hsub : nodupB w h closed := by
      constructor
      · have := hn.1
        rw [List.map_append] at this
        exact this.of_append_right
      · intro n hmem
        exact hn.2 n (List.mem_append.mpr (Or.inr hmem))
    have hlen := nodup_inBounds_length_le w h (closed.map Node.pos) hsub.1
      (by
        intro p hp
        obtain ⟨n, hnmem, hneq⟩ := List.mem_map.mp hp
        rw [← hneq]
        exact hsub.2 n hnmem)
    rw [List.length_map] at hlen
    omega
  | succ fuel ih =>
    intro opn closed hn hfuel
    rw [aStarLoop]
    by_cases hne : opn = []
    · rw [dif_pos hne]
      simp
    · rw [dif_neg hne]
      simp only []
      by_cases hend : ((sortOpen opn).getLast (sortOpen_ne_nil hne)).pos = endP
      · rw [if_pos hend]
        simp
      · rw [if_neg hend]
        set best := (sortOpen opn).getLast (sortOpen_ne_nil hne) with hbest
        set rest := (sortOpen opn).dropLast with hrest
        have hperm1 : (opn ++ closed).Perm (rest ++ (closed ++ [best])) := by
          have h0 : opn.Perm (rest ++ [best]) := sortOpen_decomp opn hne
          have h1 : (opn ++ closed).Perm ((rest ++ [best]) ++ closed) := h0.append_right closed
          have h2 : (rest ++ [best]) ++ closed = rest ++ ([best] ++ closed) := by
            rw [List.append_assoc]
          have h3 : (rest ++ ([best] ++ closed)).Perm (rest ++ (closed ++ [best])) :=
            List.Perm.append_left rest List.perm_append_comm
          rw [h2] at h1
          exact h1.trans h3
        apply ih
        · exact foldl_tryDir_nodupB w h endP walls best (closed ++ [best]) Dirs.dirList rest
            (nodupB_perm hperm1 hn)
        · rw [List.length_append]
          simp only [List.length_cons, List.length_nil]
          omega

/-- C2: with a positive grid and an in-bounds start, each position enters the
open list at most once, so the loop decides (returns the end node or fails
with `noPath`) within `width * height + 1` iterations: run with that much
fuel, `a_star` never runs out. -/
theorem search_terminates (w h : Nat) (s e : Point) (walls : List Point)
    (hw : 0 < w) (hh : 0 < h) (hs : inBounds w h s) :
    a_star w h s e walls (w * h + 1) ≠ none := by
  rw [a_star]
  apply aStarLoop_total
  · constructor
    · simp
    · intro n hn
      simp only [List.append_nil, List.mem_singleton] at hn
      rw [hn, Node_new_pos]
      exact hs
  · simp

theorem search_terminates_witness :
    (0 < 3 ∧ 0 < 2 ∧ inBounds 3 2 { x := 1, y := 1 }) ∧
      a_star 3 2 { x := 1, y := 1 } { x := 9, y := 9 } [{ x := 0, y := 0 }] (3 * 2 + 1) ≠ none :=
  ⟨by decide, search_terminates 3 2 { x := 1, y := 1 } { x := 9, y := 9 }
    [{ x := 0, y := 0 }] (by decide) (by decide) (by decide)⟩

theorem mem_foldl_tryDir (w h : Nat) (endP : Point) (walls : List Point)
    (best : Node) (closed : List Node) :
    ∀ (ds : List Dirs) (opn : List Node) (n : Node),
      n ∈ ds.foldl (tryDir w h endP walls best closed) opn →
      n ∈ opn ∨ ∃ d ∈ ds, n = Node.new (Point.add best.pos (Dirs.get d)) (some best) endP := by
  intro ds
  induction ds with
  | nil => intro opn n hn; exact Or.inl hn
  | cons d ds ih =>
    intro opn n hn
    rw [List.foldl_cons] at hn
    rcases ih _ n hn with hmem | ⟨d', hd', hval⟩
    · rw [tryDir_eq] at hmem
      by_cases hacc : accepts w h walls opn closed (Point.add best.pos (Dirs.get d))
      · rw [if_pos hacc] at hmem
        rcases List.mem_append.mp hmem with hold | hnew
        · exact Or.inl hold
        · refine Or.inr ⟨d, by simp, ?_⟩
          simpa using hnew
      · rw [if_neg hacc] at hmem
        exact Or.inl hmem
    · exact Or.inr ⟨d', List.mem_cons_of_mem d hd', hval⟩

theorem mem_sortOpen {l : List Node} {n : Node} (h : n ∈ sortOpen l) : n ∈ l := by
  rw [sortOpen] at h
  exact (List.perm_insertionSort (fun a b => b.f ≤ a.f) l).mem_iff.mp h

theorem best_mem {opn : List Node} (hne : ¬opn = []) :
    (sortOpen opn).getLast (sortOpen_ne_nil hne) ∈ opn :=
  mem_sortOpen (List.getLast_mem (sortOpen_ne_nil hne))

theorem mem_rest {opn : List Node} (hne : ¬opn = []) {n : Node}
    (h : n ∈ (sortOpen opn).dropLast) : n ∈ opn :=
  mem_sortOpen ((List.dropLast_sublist (sortOpen opn)).mem h)

/-- The invariant of C6: the score fields of a node satisfy `f = g + h` with
`h` the Manhattan distance from the node position to the end position. -/
def heuristicInv (e : Point) (n : Node) : Prop :=
  n.f = n.g + n.h ∧ n.h = |n.pos.x - e.x| + |n.pos.y - e.y|

theorem heuristicInv_new (pos : Point) (parentNode : Option Node) (e : Point) :
    heuristicInv e (Node.new pos parentNode e) := by
  cases parentNode <;> simp [Node.new, heuristicInv]

theorem aStarLoop_heuristicInv (w h : Nat) (e : Point) (walls : List Point) :
    ∀ (fuel : Nat) (opn closed : List Node) (n : Node),
      (∀ x ∈ opn, heuristicInv e x) →
      aStarLoop w h e walls fuel opn closed = some (.found n) → heuristicInv e n := by
  intro fuel
  induction fuel with
  | zero => intro opn closed n _ hrun; simp [aStarLoop] at hrun
  | succ fuel ih =>
    intro opn closed n hopn hrun
    rw [aStarLoop] at hrun
    by_cases hne : opn = []
    · rw [dif_pos hne] at hrun
      simp at hrun
    · rw [dif_neg hne] at hrun
      simp only [] at hrun
      by_cases hend : ((sortOpen opn).getLast (sortOpen_ne_nil hne)).pos = e
      · rw [if_pos hend] at hrun
        simp only [Option.some.injEq, AStarResult.found.injEq] at hrun
        rw [← hrun]
        exact hopn _ (best_mem hne)
      · rw [if_neg hend] at hrun
        refine ih _ _ n ?_ hrun
        intro x hx
        rcases mem_foldl_tryDir w h e walls _ _ _ _ x hx with hold | ⟨d, _, hval⟩
        · exact hopn x (mem_rest hne hold)
        · rw [hval]
          exact heuristicInv_new _ _ e

/-- C6: every node `Node::new` ever constructs for end position `e` satisfies
`f = g + h` and `h = |x - e.x| + |y - e.y|` (the fields are set once at
construction and no code path mutates them), and in particular the node a
successful `a_star` call returns satisfies both equations. -/
theorem node_score_invariant (e : Point) :
    (∀ (pos : Point) (parentNode : Option Node), heuristicInv e (Node.new pos parentNode e)) ∧
      ∀ (w h : Nat) (s : Point) (walls : List Point) (fuel : Nat) (n : Node),
        a_star w h s e walls fuel = some (.found n) → heuristicInv e n := by
  refine ⟨fun pos parentNode => heuristicInv_new pos parentNode e, ?_⟩
  intro w h s walls fuel n hrun
  rw [a_star] at hrun
  refine aStarLoop_heuristicInv w h e walls fuel _ _ n ?_ hrun
  intro x hx
  simp only [List.mem_singleton] at hx
  rw [hx]
  exact heuristicInv_new _ _ e

theorem node_score_invariant_witness :
    heuristicInv { x := 4, y := 0 }
      { parent := some { x := 3, y := 0 }, pos := { x := 4, y := 0 }, g := 4, h := 0, f := 4 } :=
  (node_score_invariant { x := 4, y := 0 }).2 5 5 { x := 0, y := 0 } [] 26
    { parent := some { x := 3, y := 0 }, pos := { x := 4, y := 0 }, g := 4, h := 0, f := 4 }
    (by decide)

/-- A position is admissible when it is inside the grid and not a wall. -/
def posOk (w h : Nat) (walls : List Point) (p : Point) : Prop :=
  inBounds w h p ∧ p ∉ walls

/-- The loop again, also returning the closed list held at the moment the
loop stops (the source keeps `closed` local; this instrumented copy only
exposes it, the control flow is identical — see `aStarLoopT_fst`). -/
def aStarLoopT (w h : Nat) (endP : Point) (walls : List Point) :
    Nat → List Node → List Node → Option AStarResult × List Node
  | 0, _, closed => (none, closed)
  | fuel + 1, opn, closed =>
    if hne : opn = [] then
      (some .noPath, closed)
    else
      let sorted := sortOpen opn
      let best := sorted.getLast (sortOpen_ne_nil hne)
      let rest := sorted.dropLast
      if best.pos = endP then
        (some (.found best), closed)
      else
        let closed' := closed ++ [best]
        aStarLoopT w h endP walls fuel
          (Dirs.dirList.foldl (tryDir w h endP walls best closed') rest) closed'

theorem aStarLoopT_fst (w h : Nat) (endP : Point) (walls : List Point) :
    ∀ (fuel : Nat) (opn closed : List Node),
      (aStarLoopT w h endP walls fuel opn closed).1 = aStarLoop w h endP walls fuel opn closed := by
  intro fuel
  induction fuel with
  | zero => intro opn closed; rfl
  | succ fuel ih =>
    intro opn closed
    rw [aStarLoopT, aStarLoop]
    by_cases hne : opn = []
    · rw [dif_pos hne, dif_pos hne]
    · rw [dif_neg hne, dif_neg hne]
      simp only []
      by_cases hend : ((sortOpen opn).getLast (sortOpen_ne_nil hne)).pos = endP
      · rw [if_pos hend, if_pos hend]
      · rw [if_neg hend, if_neg hend]
        exact ih _ _

/-- The positions along the parent chain of `n`, looked up in a closed list
(fuel-bounded walk; the caller of the crate performs this reconstruction). -/
def chainPos : Nat → List Node → Node → List Point
  | 0, _, n => [n.pos]
  | m + 1, closed, n =>
    n.pos ::
      (match n.parent with
      | none => []
      | some q =>
        match closed.find? (fun c => c.pos == q) with
        | none => []
        | some c => chainPos m closed c)

theorem chainPos_ok (w h : Nat) (walls : List Point) (closed : List Node)
    (hclosed : ∀ c ∈ closed, posOk w h walls c.pos) :
    ∀ (m : Nat) (n : Node), posOk w h walls n.pos →
      ∀ p ∈ chainPos m closed n, posOk w h walls p := by
  intro m
  induction m with
  | zero =>
    intro n hn p hp
    simp only [chainPos, List.mem_singleton] at hp
    rw [hp]
    exact hn
  | succ m ih =>
    intro n hn p hp
    rw [chainPos] at hp
    rcases List.mem_cons.mp hp with hphead | hptail
    · rw [hphead]
      exact hn
    · rcases hq : n.parent with _ | q
      · rw [hq] at hptail
        simp at hptail
      · rw [hq] at hptail
        rcases hfind : closed.find? (fun c => c.pos == q) with _ | c
        · simp only [hfind] at hptail
          simp at hptail
        · simp only [hfind] at hptail
          exact ih c (hclosed c (List.mem_of_find?_eq_some hfind)) p hptail

theorem mem_foldl_tryDir_posOk (w h : Nat) (endP : Point) (walls : List Point)
    (best : Node) (closed : List Node) :
    ∀ (ds : List Dirs) (opn : List Node) (n : Node),
      n ∈ ds.foldl (tryDir w h endP walls best closed) opn →
      n ∈ opn ∨ posOk w h walls n.pos := by
  intro ds
  induction ds with
  | nil => intro opn n hn; exact Or.inl hn
  | cons d ds ih =>
    intro opn n hn
    rw [List.foldl_cons] at hn
    rcases ih _ n hn with hmem | hok
    · rw [tryDir_eq] at hmem
      by_cases hacc : accepts w h walls opn closed (Point.add best.pos (Dirs.get d))
      · rw [if_pos hacc] at hmem
        rcases List.mem_append.mp hmem with hold | hnew
        · exact Or.inl hold
        · simp only [List.mem_singleton] at hnew
          refine Or.inr ?_
          rw [hnew, Node_new_pos]
          exact ⟨hacc.1, hacc.2.1⟩
      · rw [if_neg hacc] at hmem
        exact Or.inl hmem
    · exact Or.inr hok

theorem aStarLoopT_posOk (w h : Nat) (endP : Point) (walls : List Point) :
    ∀ (fuel : Nat) (opn closed : List Node) (n : Node) (closedF : List Node),
      (∀ x ∈ opn ++ closed, posOk w h walls x.pos) →
      aStarLoopT w h endP walls fuel opn closed = (some (.found n), closedF) →
      posOk w h walls n.pos ∧ ∀ c ∈ closedF, posOk w h walls c.pos := by
  intro fuel
  induction fuel with
  | zero => intro opn closed n closedF _ hrun; simp [aStarLoopT] at hrun
  | succ fuel ih =>
    intro opn closed n closedF hinv hrun
    rw [aStarLoopT] at hrun
    by_cases hne : opn = []
    · rw [dif_pos hne] at hrun
      simp at hrun
    · rw [dif_neg hne] at hrun
      simp only [] at hrun
      by_cases hend : ((sortOpen opn).getLast (sortOpen_ne_nil hne)).pos = endP
      · rw [if_pos hend] at hrun
        simp only [Prod.mk.injEq, Option.some.injEq, AStarResult.found.injEq] at hrun
        obtain ⟨hn, hcf⟩ := hrun
        constructor
        · rw [← hn]
          exact hinv _ (List.mem_append.mpr (Or.inl (best_mem hne)))
        · intro c hc
          rw [← hcf] at hc
          exact hinv c (List.mem_append.mpr (Or.inr hc))
      · rw [if_neg hend] at hrun
        refine ih _ _ n closedF ?_ hrun
        intro x hx
        rcases List.mem_append.mp hx with hxo | hxc
        · rcases mem_foldl_tryDir_posOk w h endP walls _ _ _ _ x hxo with hold | hok
          · exact hinv x (List.mem_append.mpr (Or.inl (mem_rest hne hold)))
          · exact hok
        · rcases List.mem_append.mp hxc with hxc | hxb
          · exact hinv x (List.mem_append.mpr (Or.inr hxc))
          · simp only [List.mem_singleton] at hxb
            rw [hxb]
            exact hinv _ (List.mem_append.mpr (Or.inl (best_mem hne)))

/-- C8: if the start is inside the grid and not an obstacle, every node that
a run puts into the closed list and the returned terminal node sit on
admissible positions (inside the grid, not a wall), and therefore every
position on the parent chain of the terminal node, reconstructed against the
final closed list, is admissible as well. -/
theorem obstacle_respect (w h : Nat) (s e : Point) (walls : List Point)
    (hs : inBounds w h s) (hsw : s ∉ walls) (fuel : Nat) (n : Node)
    (closedF : List Node)
    (hrun : aStarLoopT w h e walls fuel [Node.new s none e] [] = (some (.found n), closedF)) :
    a_star w h s e walls fuel = some (.found n) ∧
      (∀ c ∈ closedF, posOk w h walls c.pos) ∧
      posOk w h walls n.pos ∧
      ∀ (m : Nat), ∀ p ∈ chainPos m closedF n, posOk w h walls p := by
  have hinit : ∀ x ∈ [Node.new s none e] ++ ([] : List Node), posOk w h walls x.pos := by
    intro x hx
    simp only [List.append_nil, List.mem_singleton] at hx
    rw [hx, Node_new_pos]
    exact ⟨hs, hsw⟩
  have hok := aStarLoopT_posOk w h e walls fuel _ _ n closedF hinit hrun
  refine ⟨?_, hok.2, hok.1, ?_⟩
  · rw [a_star, ← aStarLoopT_fst, hrun]
  · intro m
    exact chainPos_ok w h walls closedF hok.2 m n hok.1

theorem obstacle_respect_witness :
    a_star 1 1 { x := 0, y := 0 } { x := 0, y := 0 } [] 1 =
        some (.found { parent := none, pos := { x := 0, y := 0 }, g := 0, h := 0, f := 0 }) ∧
      (∀ c ∈ ([] : List Node), posOk 1 1 [] c.pos) ∧
      posOk 1 1 []
        (Node.pos { parent := none, pos := { x := 0, y := 0 }, g := 0, h := 0, f := 0 }) ∧
      ∀ (m : Nat), ∀ p ∈ chainPos m []
          { parent := none, pos := { x := 0, y := 0 }, g := 0, h := 0, f := 0 },
        posOk 1 1 [] p :=
  obstacle_respect 1 1 { x := 0, y := 0 } { x := 0, y := 0 } [] (by decide) (by decide) 1
    { parent := none, pos := { x := 0, y := 0 }, g := 0, h := 0, f := 0 } [] (by decide)

theorem Dirs_get_inj (d d' : Dirs) (hd : Dirs.get d = Dirs.get d') : d = d' := by
  cases d <;> cases d' <;> simp_all [Dirs.get]

theorem Point_add_left_cancel (p q r : Point) (hpq : Point.add p q = Point.add p r) : q = r := by
  unfold Point.add at hpq
  have hx : p.x + q.x = p.x + r.x := congrArg Point.x hpq
  have hy : p.y + q.y = p.y + r.y := congrArg Point.y hpq
  cases q; cases r
  simp_all

/-- The expansion fold only appends: the result is the initial open list
followed by a batch of freshly constructed, filter-approved successors. -/
theorem foldl_tryDir_decomp (w h : Nat) (endP : Point) (walls : List Point)
    (best : Node) (closed : List Node) :
    ∀ (ds : List Dirs) (opn : List Node),
      ∃ A, ds.foldl (tryDir w h endP walls best closed) opn = opn ++ A ∧
        ∀ a ∈ A, (∃ d ∈ ds, a = Node.new (Point.add best.pos (Dirs.get d)) (some best) endP) ∧
          inBounds w h a.pos ∧ a.pos ∉ walls := by
  intro ds
  induction ds with
  | nil => intro opn; exact ⟨[], by simp, by simp⟩
  | cons d ds ih =>
    intro opn
    rw [List.foldl_cons, tryDir_eq]
    by_cases hacc : accepts w h walls opn closed (Point.add best.pos (Dirs.get d))
    · rw [if_pos hacc]
      obtain ⟨A', hfold, hprops⟩ :=
        ih (opn ++ [Node.new (Point.add best.pos (Dirs.get d)) (some best) endP])
      refine ⟨Node.new (Point.add best.pos (Dirs.get d)) (some best) endP :: A', ?_, ?_⟩
      · rw [hfold, List.append_assoc]
        rfl
      · intro a ha
        rcases List.mem_cons.mp ha with hhead | htail
        · refine ⟨⟨d, by simp, hhead⟩, ?_, ?_⟩
          · rw [hhead, Node_new_pos]
            exact hacc.1
          · rw [hhead, Node_new_pos]
            exact hacc.2.1
        · obtain ⟨⟨d', hd', hval⟩, hb, hwl⟩ := hprops a htail
          exact ⟨⟨d', List.mem_cons_of_mem d hd', hval⟩, hb, hwl⟩
    · rw [if_neg hacc]
      obtain ⟨A', hfold, hprops⟩ := ih opn
      refine ⟨A', hfold, ?_⟩
      intro a ha
      obtain ⟨⟨d', hd', hval⟩, hb, hwl⟩ := hprops a ha
      exact ⟨⟨d', List.mem_cons_of_mem d hd', hval⟩, hb, hwl⟩

/-- A successor whose position passes all filters and collides with nothing
already seen is inserted by the expansion fold. -/
theorem foldl_tryDir_mem (w h : Nat) (endP : Point) (walls : List Point)
    (best : Node) (closed : List Node) (dStar : Dirs) :
    ∀ (ds : List Dirs) (opn : List Node), dStar ∈ ds →
      inBounds w h (Point.add best.pos (Dirs.get dStar)) →
      Point.add best.pos (Dirs.get dStar) ∉ walls →
      (∀ n ∈ opn, n.pos ≠ Point.add best.pos (Dirs.get dStar)) →
      (∀ n ∈ closed, n.pos ≠ Point.add best.pos (Dirs.get dStar)) →
      Node.new (Point.add best.pos (Dirs.get dStar)) (some best) endP ∈
        ds.foldl (tryDir w h endP walls best closed) opn := by
  intro ds
  induction ds with
  | nil => intro opn hmem; simp at hmem
  | cons d ds ih =>
    intro opn hmem hbnd hwl hopn hcl
    rw [List.foldl_cons]
    by_cases hd : d = dStar
    · subst hd
      have hacc : accepts w h walls opn closed (Point.add best.pos (Dirs.get d)) :=
        ⟨hbnd, hwl, hopn, hcl⟩
      rw [tryDir_eq, if_pos hacc]
      obtain ⟨A, hfold, _⟩ := foldl_tryDir_decomp w h endP walls best closed ds
        (opn ++ [Node.new (Point.add best.pos (Dirs.get d)) (some best) endP])
      rw [hfold]
      exact List.mem_append.mpr (Or.inl (List.mem_append.mpr (Or.inr (by simp))))
    · have hmem' : dStar ∈ ds := by
        rcases List.mem_cons.mp hmem with hcontra | hok
        · exact absurd hcontra.symm hd
        · exact hok
      apply ih _ hmem' hbnd hwl _ hcl
      intro n hn
      rw [tryDir_eq] at hn
      by_cases hacc : accepts w h walls opn closed (Point.add best.pos (Dirs.get d))
      · rw [if_pos hacc] at hn
        rcases List.mem_append.mp hn with hold | hnew
        · exact hopn n hold
        · simp only [List.mem_singleton] at hnew
          rw [hnew, Node_new_pos]
          intro hcontra
          exact hd (Dirs_get_inj d dStar (Point_add_left_cancel best.pos _ _ hcontra))
      · rw [if_neg hacc] at hn
        exact hopn n hn

/-- Any list with an element satisfying a decidable predicate splits around
the last such element. -/
theorem exists_last_decomp (Q : Node → Prop) [DecidablePred Q] :
    ∀ (A : List Node), (∃ a ∈ A, Q a) →
      ∃ A₁ y A₂, A = A₁ ++ y :: A₂ ∧ Q y ∧ ∀ m ∈ A₂, ¬Q m := by
  intro A
  induction A with
  | nil => intro hex; simp at hex
  | cons a t ih =>
    intro hex
    by_cases ht : ∃ a' ∈ t, Q a'
    · obtain ⟨A₁, y, A₂, heq, hy, hafter⟩ := ih ht
      exact ⟨a :: A₁, y, A₂, by rw [heq]; rfl, hy, hafter⟩
    · refine ⟨[], a, t, rfl, ?_, ?_⟩
      · obtain ⟨a', ha', hq⟩ := hex
        rcases List.mem_cons.mp ha' with hh | htl
        · rw [← hh]; exact hq
        · exact absurd ⟨a', htl, hq⟩ ht
      · intro m hm hq
        exact ht ⟨m, hm, hq⟩

/-- If the open list splits around a node `x` of minimal `f` such that every
entry after `x` has strictly larger `f`, the sorted pop selects exactly `x`. -/
theorem pop_eq_last_min (opn : List Node) (hne : ¬opn = []) (x : Node)
    (u₁ u₂ : List Node) (heq : opn = u₁ ++ x :: u₂) (D : Int) (hxf : x.f = D)
    (hall : ∀ n ∈ opn, D ≤ n.f) (hafter : ∀ m ∈ u₂, D < m.f) :
    (sortOpen opn).getLast (sortOpen_ne_nil hne) = x := by
  obtain ⟨l₁, l₂, hdec, hmin, hlater⟩ := pop_spec opn hne
  set best := (sortOpen opn).getLast (sortOpen_ne_nil hne) with hbest
  have hbestmem : best ∈ opn := best_mem hne
  have hxmem : x ∈ opn := by
    rw [heq]
    exact List.mem_append.mpr (Or.inr (List.mem_cons_self x u₂))
  have hbf : best.f = D := by
    have h1 := hall best hbestmem
    have h2 := hmin x hxmem
    omega
  rw [heq] at hdec
  rcases List.append_eq_append_iff.mp hdec with ⟨a', ha1, ha2⟩ | ⟨c', hc1, hc2⟩
  · cases a' with
    | nil =>
      simp only [List.nil_append] at ha2
      exact ((List.cons_eq_cons.mp ha2).1).symm
    | cons y ys =>
      rw [List.cons_append] at ha2
      have h12 := List.cons_eq_cons.mp ha2
      have hbestu2 : best ∈ u₂ := by
        rw [h12.2]
        exact List.mem_append.mpr (Or.inr (List.mem_cons_self best l₂))
      have := hafter best hbestu2
      omega
  · cases c' with
    | nil =>
      simp only [List.nil_append] at hc2
      exact (List.cons_eq_cons.mp hc2).1
    | cons y ys =>
      rw [List.cons_append] at hc2
      have h12 := List.cons_eq_cons.mp hc2
      have hxl2 : x ∈ l₂ := by
        rw [h12.2]
        exact List.mem_append.mpr (Or.inr (List.mem_cons_self x u₂))
      have := hlater x hxl2
      omega

theorem distN_self (p : Point) : distN p p = 0 := by
  unfold distN
  omega

/-- Loop invariant for the obstacle-free optimality proof, after `k`
expansions: every open node carries consistent scores with `g` at least the
true distance from the start and position within `k` steps of the start;
every closed node is strictly closer than `k`; and the open list holds a node
`x` on a shortest path at exactly `k` steps (with exact `g = k`) such that
every entry inserted after `x` has `f` strictly above the Manhattan distance
from start to end. -/
def c1Inv (w h : Nat) (s e : Point) (k : Nat) (opn closed : List Node) : Prop :=
  (∀ n ∈ opn, n.h = (distN n.pos e : Int) ∧ n.f = n.g + n.h ∧
    (distN s n.pos : Int) ≤ n.g ∧ distN s n.pos ≤ k) ∧
  (∀ c ∈ closed, distN s c.pos < k) ∧
  ∃ u₁ x u₂, opn = u₁ ++ x :: u₂ ∧ x.g = (k : Int) ∧ distN s x.pos = k ∧
    distN x.pos e + k = distN s e ∧ ∀ m ∈ u₂, (distN s e : Int) < m.f

theorem c1Inv_f_lb (w h : Nat) (s e : Point) (k : Nat) (opn : List Node)
    (hA1 : ∀ n ∈ opn, n.h = (distN n.pos e : Int) ∧ n.f = n.g + n.h ∧
      (distN s n.pos : Int) ≤ n.g ∧ distN s n.pos ≤ k) :
    ∀ n ∈ opn, (distN s e : Int) ≤ n.f := by
  intro n hn
  obtain ⟨h1, h2, h3, _⟩ := hA1 n hn
  have htri := distN_triangle s n.pos e
  omega

/-- On a shortest path that has not reached the end yet, one of the four
cardinal moves steps to the next shortest-path cell: it stays in bounds,
gets one step closer to the end and one step further from the start. -/
theorem step_succ_exists (w h : Nat) (s e : Point) (hs : inBounds w h s)
    (he : inBounds w h e) (k : Nat) (xpos : Point)
    (hsx : distN s xpos = k) (hxe : distN xpos e + k = distN s e)
    (hlt : k < distN s e) :
    ∃ d : Dirs, inBounds w h (Point.add xpos (Dirs.get d)) ∧
      distN (Point.add xpos (Dirs.get d)) e + (k + 1) = distN s e ∧
      distN s (Point.add xpos (Dirs.get d)) = k + 1 := by
  obtain ⟨hs1, hs2, hs3, hs4⟩ := hs
  obtain ⟨he1, he2, he3, he4⟩ := he
  by_cases hx1 : xpos.x < e.x
  · refine ⟨.E, ?_, ?_, ?_⟩ <;>
      (simp only [inBounds, distN, Point.add, Dirs.get] at hsx hxe hlt ⊢) <;> omega
  · by_cases hx2 : e.x < xpos.x
    · refine ⟨.W, ?_, ?_, ?_⟩ <;>
        (simp only [inBounds, distN, Point.add, Dirs.get] at hsx hxe hlt ⊢) <;> omega
    · by_cases hy1 : xpos.y < e.y
      · refine ⟨.S, ?_, ?_, ?_⟩ <;>
          (simp only [inBounds, distN, Point.add, Dirs.get] at hsx hxe hlt ⊢) <;> omega
      · by_cases hy2 : e.y < xpos.y
        · refine ⟨.N, ?_, ?_, ?_⟩ <;>
            (simp only [inBounds, distN, Point.add, Dirs.get] at hsx hxe hlt ⊢) <;> omega
        · exfalso
          simp only [distN] at hsx hxe hlt
          omega

/-- One non-terminal iteration on an obstacle-free grid preserves the
optimality invariant, moving the tracked shortest-path node one step closer
to the end. -/
theorem c1Inv_step (w h : Nat) (s e : Point) (hs : inBounds w h s)
    (he : inBounds w h e) (k : Nat) (opn closed : List Node) (x : Node)
    (rest : List Node)
    (hA1 : ∀ n ∈ opn, n.h = (distN n.pos e : Int) ∧ n.f = n.g + n.h ∧
      (distN s n.pos : Int) ≤ n.g ∧ distN s n.pos ≤ k)
    (hA2 : ∀ c ∈ closed, distN s c.pos < k)
    (hxg : x.g = (k : Int)) (hsx : distN s x.pos = k)
    (hxe : distN x.pos e + k = distN s e) (hlt : k < distN s e)
    (hrest : ∀ n ∈ rest, n ∈ opn) :
    c1Inv w h s e (k + 1)
      (Dirs.dirList.foldl (tryDir w h e [] x (closed ++ [x])) rest) (closed ++ [x]) := by
  obtain ⟨dStar, hdb, hde, hds⟩ := step_succ_exists w h s e hs he k x.pos hsx hxe hlt
  set pStar := Point.add x.pos (Dirs.get dStar) with hpStar
  set closed' := closed ++ [x] with hclosed'
  -- facts about all successor nodes built in this expansion
  have hsuccg : ∀ d : Dirs,
      (Node.new (Point.add x.pos (Dirs.get d)) (some x) e).g = (k : Int) + 1 := by
    intro d
    rw [(Node_new_g_some (Point.add x.pos (Dirs.get d)) x e).1, hxg]
  -- the distinguished successor is inserted by the fold
  have hmemStar : Node.new pStar (some x) e ∈
      Dirs.dirList.foldl (tryDir w h e [] x closed') rest := by
    apply foldl_tryDir_mem w h e [] x closed' dStar Dirs.dirList rest
    · cases dStar <;> simp [Dirs.dirList]
    · exact hdb
    · simp
    · intro n hn hcontra
      have := (hA1 n (hrest n hn)).2.2.2
      rw [hcontra, ← hpStar] at this
      omega
    · intro n hn hcontra
      rcases List.mem_append.mp hn with hcl | hxx
      · have := hA2 n hcl
        rw [hcontra, ← hpStar] at this
        omega
      · simp only [List.mem_singleton] at hxx
        rw [hxx] at hcontra
        rw [hcontra, ← hpStar] at hsx
        omega
  obtain ⟨A, hfold, hprops⟩ := foldl_tryDir_decomp w h e [] x closed' Dirs.dirList rest
  -- generic facts about members of the appended batch
  have hAfacts : ∀ a ∈ A, a.h = (distN a.pos e : Int) ∧ a.f = a.g + a.h ∧
      a.g = (k : Int) + 1 ∧ distN s a.pos ≤ k + 1 := by
    intro a ha
    obtain ⟨⟨d, _, hval⟩, _, _⟩ := hprops a ha
    have hh := (Node_new_h (Point.add x.pos (Dirs.get d)) (some x) e)
    have hg := hsuccg d
    have hdist : distN s a.pos ≤ k + 1 := by
      rw [hval, Node_new_pos]
      have := distN_add s x.pos d
      omega
    rw [hval]
    rw [hval] at hdist
    refine ⟨?_, hh.2.1, hg, hdist⟩
    rw [hh.1, hh.2.2]
  have hAf_lb : ∀ a ∈ A, (distN s e : Int) ≤ a.f := by
    intro a ha
    obtain ⟨h1, h2, h3, h4⟩ := hAfacts a ha
    have htri := distN_triangle s a.pos e
    omega
  -- the distinguished successor has f exactly the total Manhattan distance
  have hstarA : Node.new pStar (some x) e ∈ A := by
    rw [hfold] at hmemStar
    rcases List.mem_append.mp hmemStar with hr | hA
    · exfalso
      have hb := (hA1 _ (hrest _ hr)).2.2.2
      rw [Node_new_pos] at hb
      omega
    · exact hA
  have hstarf : (Node.new pStar (some x) e).f = (distN s e : Int) := by
    have hh := Node_new_h pStar (some x) e
    have hg := hsuccg dStar
    rw [← hpStar] at hg
    rw [hh.2.1, hh.1, hg]
    omega
  -- split the batch around the last entry with minimal possible f
  obtain ⟨A₁, y, A₂, hAeq, hyf, hA₂⟩ :=
    exists_last_decomp (fun a => a.f = (distN s e : Int)) A
      ⟨Node.new pStar (some x) e, hstarA, hstarf⟩
  have hymem : y ∈ A := by
    rw [hAeq]
    exact List.mem_append.mpr (Or.inr (List.mem_cons_self y A₂))
  obtain ⟨hy1, hy2, hy3, hy4⟩ := hAfacts y hymem
  have hyde : distN y.pos e + (k + 1) = distN s e := by
    have : (distN y.pos e : Int) = (distN s e : Int) - ((k : Int) + 1) := by
      rw [← hy1]
      omega
    have htri := distN_triangle s y.pos e
    omega
  have hyds : distN s y.pos = k + 1 := by
    have htri := distN_triangle s y.pos e
    omega
  refine ⟨?_, ?_, rest ++ A₁, y, A₂, ?_, ?_, hyds, hyde, ?_⟩
  · -- A1 at k + 1
    intro n hn
    rw [hfold] at hn
    rcases List.mem_append.mp hn with hr | hA
    · obtain ⟨h1, h2, h3, h4⟩ := hA1 n (hrest n hr)
      exact ⟨h1, h2, h3, by omega⟩
    · obtain ⟨h1, h2, h3, h4⟩ := hAfacts n hA
      refine ⟨h1, h2, ?_, h4⟩
      have htri := distN_triangle s n.pos e
      omega
  · -- A2 at k + 1
    intro c hc
    rcases List.mem_append.mp hc with hcl | hxx
    · have := hA2 c hcl
      omega
    · simp only [List.mem_singleton] at hxx
      rw [hxx]
      omega
  · rw [hfold, hAeq, List.append_assoc]
  · rw [hy3]
    push_cast
    ring
  · intro m hm
    have hge := hAf_lb m (by rw [hAeq]; exact List.mem_append.mpr (Or.inr (List.mem_cons_of_mem y hm)))
    have hne := hA₂ m hm
    simp only [] at hne
    omega

/-- The obstacle-free march: under the invariant at `k` with `k + r` equal to
the total Manhattan distance, the loop finds the end with optimal cost within
`r + 1` further iterations. -/
theorem c1_march (w h : Nat) (s e : Point) (hs : inBounds w h s)
    (he : inBounds w h e) :
    ∀ (r k : Nat) (opn closed : List Node), k + r = distN s e →
      c1Inv w h s e k opn closed →
      ∀ fuel : Nat, r < fuel →
      ∃ n, aStarLoop w h e [] fuel opn closed = some (.found n) ∧
        n.g = (distN s e : Int) ∧ n.pos = e := by
  intro r
  induction r with
  | zero =>
    intro k opn closed hkr hinv fuel hfuel
    obtain ⟨hA1, hA2, u₁, x, u₂, heq, hxg, hsx, hxe, hafter⟩ := hinv
    cases fuel with
    | zero => omega
    | succ fuel =>
      have hne : ¬opn = [] := by rw [heq]; simp
      have hxmem : x ∈ opn := by
        rw [heq]
        exact List.mem_append.mpr (Or.inr (List.mem_cons_self x u₂))
      have hxf : x.f = (distN s e : Int) := by
        obtain ⟨h1, h2, _, _⟩ := hA1 x hxmem
        omega
      have hall := c1Inv_f_lb w h s e k opn hA1
      have hbest := pop_eq_last_min opn hne x u₁ u₂ heq (distN s e : Int) hxf hall hafter
      have hxpos : x.pos = e := by
        apply distN_eq_zero
        omega
      rw [aStarLoop, dif_neg hne]
      simp only []
      rw [hbest, if_pos hxpos]
      exact ⟨x, rfl, by omega, hxpos⟩
  | succ r ih =>
    intro k opn closed hkr hinv fuel hfuel
    obtain ⟨hA1, hA2, u₁, x, u₂, heq, hxg, hsx, hxe, hafter⟩ := hinv
    cases fuel with
    | zero => omega
    | succ fuel =>
      have hne : ¬opn = [] := by rw [heq]; simp
      have hxmem : x ∈ opn := by
        rw [heq]
        exact List.mem_append.mpr (Or.inr (List.mem_cons_self x u₂))
      have hxf : x.f = (distN s e : Int) := by
        obtain ⟨h1, h2, _, _⟩ := hA1 x hxmem
        omega
      have hall := c1Inv_f_lb w h s e k opn hA1
      have hbest := pop_eq_last_min opn hne x u₁ u₂ heq (distN s e : Int) hxf hall hafter
      have hxpne : ¬x.pos = e := by
        intro hcontra
        rw [hcontra, distN_self] at hxe
        omega
      rw [aStarLoop, dif_neg hne]
      simp only []
      rw [hbest, if_neg hxpne]
      apply ih (k + 1) _ _ (by omega)
        (c1Inv_step w h s e hs he k opn closed x ((sortOpen opn).dropLast)
          hA1 hA2 hxg hsx hxe (by omega) (fun n hn => mem_rest hne hn))
        fuel (by omega)

/-- C1: on an obstacle-free grid with both endpoints in bounds, the search
returns a terminal node at the end position whose `g` equals the Manhattan
distance between start and end. -/
theorem optimal_on_empty_grid (w h : Nat) (s e : Point) (hw : 0 < w)
    (hh : 0 < h) (hs : inBounds w h s) (he : inBounds w h e) :
    ∃ n, a_star w h s e [] (w * h + 1) = some (.found n) ∧
      n.g = |s.x - e.x| + |s.y - e.y| ∧ n.pos = e := by
  have key : ∀ a b : Nat, a + b ≤ (a + 1) * (b + 1) := by
    intro a b
    nlinarith
  have hD : distN s e ≤ w * h := by
    obtain ⟨hs1, hs2, hs3, hs4⟩ := hs
    obtain ⟨he1, he2, he3, he4⟩ := he
    have h3 : (w - 1) + (h - 1) ≤ w * h := by
      have hk := key (w - 1) (h - 1)
      have e1 : w - 1 + 1 = w := by omega
      have e2 : h - 1 + 1 = h := by omega
      rw [e1, e2] at hk
      exact hk
    unfold distN
    omega
  have hinit : c1Inv w h s e 0 [Node.new s none e] [] := by
    have hh0 := Node_new_h s none e
    have hg0 := Node_new_g_none s e
    refine ⟨?_, by simp, [], Node.new s none e, [], by simp, ?_, ?_, ?_, by simp⟩
    · intro n hn
      simp only [List.mem_singleton] at hn
      subst hn
      rw [hh0.2.2, hg0.1, distN_self]
      exact ⟨hh0.1, hh0.2.1, by simp, by simp⟩
    · rw [hg0.1]
      simp
    · rw [hh0.2.2, distN_self]
    · rw [hh0.2.2]
      omega
  obtain ⟨n, hrun, hg, hpos⟩ := c1_march w h s e hs he (distN s e) 0
    [Node.new s none e] [] (by omega) hinit (w * h + 1) (by omega)
  refine ⟨n, hrun, ?_, hpos⟩
  rw [hg, Int.abs_eq_natAbs, Int.abs_eq_natAbs]
  unfold distN
  push_cast
  ring

theorem optimal_on_empty_grid_witness :
    (0 < 5 ∧ 0 < 5 ∧ inBounds 5 5 { x := 0, y := 0 } ∧ inBounds 5 5 { x := 4, y := 0 }) ∧
      ∃ n, a_star 5 5 { x := 0, y := 0 } { x := 4, y := 0 } [] (5 * 5 + 1) =
          some (.found n) ∧
        n.g = |(0 : Int) - 4| + |(0 : Int) - 0| ∧ n.pos = { x := 4, y := 0 } :=
  ⟨⟨by decide, by decide, by decide, by decide⟩,
    optimal_on_empty_grid 5 5 { x := 0, y := 0 } { x := 4, y := 0 }
      (by decide) (by decide) (by decide) (by decide)⟩
